import Mathlib

/-!
The package `merkletools`: an append-only binary Merkle tree.

A shallow embedding of `merkle.go`.  Go's heap is an explicit list of `node`
cells; a `*node` is `none` (nil) or `some a`, the index of a cell.  A nil
dereference (a Go panic) is the result `Except.error Fault.nilDeref`.
-/

namespace Merkle

/-- A byte.  The program only copies, concatenates and hashes bytes and never
looks at their value, so the range of a byte is left open. -/
abbrev Byte := Nat

/-- A byte sequence, Go `[]byte`. -/
abbrev Bytes := List Byte

/-- The hash primitive `sha256.Sum256 : []byte -> [32]byte`, taken as a parameter:
any function from byte sequences to digests of `sha256.Size = 32` bytes. -/
structure HashPrim where
  Sum256 : Bytes → Bytes
  size : ∀ b, (Sum256 b).length = 32

/-- A pointer `*node`: `none` is nil, `some a` is the address of heap cell `a`. -/
abbrev Ptr := Option Nat

/-- The Go struct `node`. -/
structure node where
  parent : Ptr
  left : Ptr
  right : Ptr
  checksum : Bytes
deriving DecidableEq, Repr

/-- The heap: the cells allocated so far, addressed by position. -/
abbrev Mem := List node

/-- The Go struct `Tree`.  The nil slice is the empty list: every other value
`leafs` takes is a result of `append` and is non-empty, so `leafs == nil`
and `len(leafs) == 0` agree. -/
structure Tree where
  root : Ptr
  leafs : List Ptr
deriving DecidableEq, Repr

/-- A program state: the heap and the `Tree` value living in it. -/
structure State where
  mem : Mem
  tree : Tree
deriving DecidableEq, Repr

/-- Ways a call does not return. -/
inductive Fault where
  /-- A nil pointer is dereferenced (Go panics). -/
  | nilDeref
  /-- An address outside the heap is dereferenced (no Go pointer is such). -/
  | wild
  /-- The recursion or loop did not finish within its bound (it runs forever). -/
  | diverge
deriving DecidableEq, Repr

/-- The value of `new(node)`: all links nil, checksum 32 zero bytes. -/
def zeroNode : node :=
  { parent := none, left := none, right := none, checksum := List.replicate 32 0 }

/-- The zero value of `Tree`, with nothing allocated. -/
def emptyState : State :=
  { mem := [], tree := { root := none, leafs := [] } }

/-- Allocation `new(node)`: the fresh address and the extended heap. -/
def new (m : Mem) : Nat × Mem := (m.length, m ++ [zeroNode])

/-- Read through a pointer, `*p`. -/
def rd (m : Mem) (p : Ptr) : Except Fault node :=
  match p with
  | none => .error .nilDeref
  | some a =>
    match m[a]? with
    | none => .error .wild
    | some nd => .ok nd

/-- Write through a pointer: replace the cell `*p` by `f (*p)`. -/
def wr (m : Mem) (p : Ptr) (f : node → node) : Except Fault Mem :=
  match p with
  | none => .error .nilDeref
  | some a =>
    match m[a]? with
    | none => .error .wild
    | some nd => .ok (m.set a (f nd))

/-- The method `NumRecords`: `len(t.leafs)`. -/
def NumRecords (s : State) : Nat := s.tree.leafs.length

/-- The method `updateChecksums` on `n`; `fuel` bounds the number of calls.
It sets `n.checksum` to the hash of `n.left.checksum ++ n.right.checksum`
and continues at `n.parent` when that is not nil. -/
def updateChecksums (H : HashPrim) : Nat → Mem → Ptr → Except Fault Mem
  | 0, _, _ => .error .diverge
  | fuel + 1, m, n => do
    let nd ← rd m n
    let l ← rd m nd.left
    let r ← rd m nd.right
    let m1 ← wr m n (fun c => { c with checksum := H.Sum256 (l.checksum ++ r.checksum) })
    match nd.parent with
    | none => .ok m1
    | some p => updateChecksums H fuel m1 (some p)

/-- The method `MerkleRootHash`. -/
def MerkleRootHash (H : HashPrim) (s : State) : Except Fault Bytes :=
  match s.tree.root with
  | none => .ok (H.Sum256 [])
  | some a => do
    let nd ← rd s.mem (some a)
    .ok nd.checksum

/-- The function `isPowerOfTwo`: `(n != 0) && (n&(n-1)) == 0`. -/
def isPowerOfTwo (n : Nat) : Bool := (n != 0) && ((n &&& (n - 1)) == 0)

/-- The expression `1 << uint(math.Log2(float64(cnt)))` for `cnt >= 1`: the largest
power of two not above `cnt` (the float computation is exact on the counts
a tree can reach). -/
def topBit (cnt : Nat) : Nat := 1 <<< Nat.log2 cnt

/-- The loop of `AddRecord` that looks for the subtree to splice above:
while `cnt` is not a power of two, subtract its top bit and step to the right
child.  `fuel` bounds the number of iterations. -/
def findFilled : Nat → Mem → Nat → Ptr → Except Fault Ptr
  | 0, _, cnt, fs => if isPowerOfTwo cnt then .ok fs else .error .diverge
  | fuel + 1, m, cnt, fs =>
    if isPowerOfTwo cnt then .ok fs
    else do
      let nd ← rd m fs
      findFilled fuel m (cnt - topBit cnt) nd.right

/-- The method `AddRecord`.  The loop gets `cnt` iterations (the count drops at
each one) and `updateChecksums` one call per allocated node (a parent chain
without a cycle is no longer). -/
def AddRecord (H : HashPrim) (s : State) (r : Bytes) : Except Fault State :=
  let (newLeaf, m0) := new s.mem
  do
    let m1 ← wr m0 (some newLeaf) (fun c => { c with checksum := H.Sum256 r })
    if s.tree.leafs = [] then
      .ok { mem := m1,
            tree := { root := some newLeaf, leafs := s.tree.leafs ++ [some newLeaf] } }
    else do
      let (newLeafParent, m2) := new m1
      let m3 ← wr m2 (some newLeaf) (fun c => { c with parent := some newLeafParent })
      let m4 ← wr m3 (some newLeafParent) (fun c => { c with right := some newLeaf })
      let cnt := s.tree.leafs.length
      let filledSubtree ← findFilled cnt m4 cnt s.tree.root
      let fs ← rd m4 filledSubtree
      let m5 ← wr m4 (some newLeafParent) (fun c => { c with parent := fs.parent })
      let m6 ← wr m5 (some newLeafParent) (fun c => { c with left := filledSubtree })
      let m7 ← wr m6 filledSubtree (fun c => { c with parent := some newLeafParent })
      let nlp ← rd m7 (some newLeafParent)
      let root := if nlp.parent = none then some newLeafParent else s.tree.root
      let leafs := s.tree.leafs ++ [some newLeaf]
      let nl ← rd m7 (some newLeaf)
      let m8 ← updateChecksums H m7.length m7 nl.parent
      .ok { mem := m8, tree := { root := root, leafs := leafs } }

/-- Appending the records of a list in order, one `AddRecord` call each. -/
def AddRecords (H : HashPrim) : State → List Bytes → Except Fault State
  | s, [] => .ok s
  | s, r :: rs => do
    let s1 ← AddRecord H s r
    AddRecords H s1 rs

/-- The root hash after appending `rs` in order to the empty tree. -/
def rootAfter (H : HashPrim) (rs : List Bytes) : Except Fault Bytes := do
  let s ← AddRecords H emptyState rs
  MerkleRootHash H s

/-- A hash primitive for examples: the input cut or zero-padded to 32 bytes. -/
def padHash : HashPrim where
  Sum256 b := (b ++ List.replicate 32 0).take 32
  size b := by simp

/-- A hash primitive for examples: a code number of the whole input, zero-padded.
It has no collisions. -/
def encHash : HashPrim where
  Sum256 b := Encodable.encode b :: List.replicate 31 0
  size b := by simp

/-- The largest power of two strictly below `n`, for `n >= 2`. -/
def pow2Below (n : Nat) : Nat := 2 ^ Nat.log2 (n - 1)

/-- The canonical tree hash as the specification words it, with `fuel` bounding the
depth: one record hashes to `hash r`; two or more records split at the largest
power of two strictly below their number and hash to
`hash (MTH left ++ MTH right)`.  (No record: `hash ""`, the empty-tree value.) -/
def specMTHAux (H : HashPrim) : Nat → List Bytes → Bytes
  | 0, _ => H.Sum256 []
  | _ + 1, [] => H.Sum256 []
  | _ + 1, [r] => H.Sum256 r
  | fuel + 1, r1 :: r2 :: rs =>
    let k := pow2Below (r1 :: r2 :: rs).length
    H.Sum256 (specMTHAux H fuel ((r1 :: r2 :: rs).take k)
      ++ specMTHAux H fuel ((r1 :: r2 :: rs).drop k))

/-- The canonical tree hash `MTH` of a record sequence, as the specification words
it. -/
def specMTH (H : HashPrim) (rs : List Bytes) : Bytes := specMTHAux H rs.length rs

/-- The state the code is in after appending `rs` to the empty tree, written out
cell by cell for each length up to seven (the eighth call does not return).
Cell `0` is the first leaf; the call for record `k+2` allocates the leaf at
`2k+1` and the internal node at `2k+2`. -/
def reached (H : HashPrim) : List Bytes → State
  | [] => emptyState
  | [r1] =>
    { mem := [⟨none, none, none, H.Sum256 r1⟩],
      tree := ⟨some 0, [some 0]⟩ }
  | [r1, r2] =>
    { mem := [⟨some 2, none, none, H.Sum256 r1⟩,
              ⟨some 2, none, none, H.Sum256 r2⟩,
              ⟨none, some 0, some 1, H.Sum256 (H.Sum256 r1 ++ H.Sum256 r2)⟩],
      tree := ⟨some 2, [some 0, some 1]⟩ }
  | [r1, r2, r3] =>
    { mem := [⟨some 2, none, none, H.Sum256 r1⟩,
              ⟨some 2, none, none, H.Sum256 r2⟩,
              ⟨some 4, some 0, some 1, H.Sum256 (H.Sum256 r1 ++ H.Sum256 r2)⟩,
              ⟨some 4, none, none, H.Sum256 r3⟩,
              ⟨none, some 2, some 3,
                H.Sum256 (H.Sum256 (H.Sum256 r1 ++ H.Sum256 r2) ++ H.Sum256 r3)⟩],
      tree := ⟨some 4, [some 0, some 1, some 3]⟩ }
  | [r1, r2, r3, r4] =>
    { mem := [⟨some 2, none, none, H.Sum256 r1⟩,
              ⟨some 2, none, none, H.Sum256 r2⟩,
              ⟨some 4, some 0, some 1, H.Sum256 (H.Sum256 r1 ++ H.Sum256 r2)⟩,
              ⟨some 6, none, none, H.Sum256 r3⟩,
              ⟨none, some 2, some 3,
                H.Sum256 (H.Sum256 (H.Sum256 r1 ++ H.Sum256 r2) ++ H.Sum256 r3)⟩,
              ⟨some 6, none, none, H.Sum256 r4⟩,
              ⟨some 4, some 3, some 5, H.Sum256 (H.Sum256 r3 ++ H.Sum256 r4)⟩],
      tree := ⟨some 4, [some 0, some 1, some 3, some 5]⟩ }
  | [r1, r2, r3, r4, r5] =>
    { mem := [⟨some 2, none, none, H.Sum256 r1⟩,
              ⟨some 2, none, none, H.Sum256 r2⟩,
              ⟨some 4, some 0, some 1, H.Sum256 (H.Sum256 r1 ++ H.Sum256 r2)⟩,
              ⟨some 6, none, none, H.Sum256 r3⟩,
              ⟨some 8, some 2, some 3,
                H.Sum256 (H.Sum256 (H.Sum256 r1 ++ H.Sum256 r2) ++ H.Sum256 r3)⟩,
              ⟨some 6, none, none, H.Sum256 r4⟩,
              ⟨some 4, some 3, some 5, H.Sum256 (H.Sum256 r3 ++ H.Sum256 r4)⟩,
              ⟨some 8, none, none, H.Sum256 r5⟩,
              ⟨none, some 4, some 7,
                H.Sum256 (H.Sum256 (H.Sum256 (H.Sum256 r1 ++ H.Sum256 r2) ++ H.Sum256 r3)
                  ++ H.Sum256 r5)⟩],
      tree := ⟨some 8, [some 0, some 1, some 3, some 5, some 7]⟩ }
  | [r1, r2, r3, r4, r5, r6] =>
    { mem := [⟨some 2, none, none, H.Sum256 r1⟩,
              ⟨some 2, none, none, H.Sum256 r2⟩,
              ⟨some 4, some 0, some 1, H.Sum256 (H.Sum256 r1 ++ H.Sum256 r2)⟩,
              ⟨some 6, none, none, H.Sum256 r3⟩,
              ⟨some 8, some 2, some 3,
                H.Sum256 (H.Sum256 (H.Sum256 r1 ++ H.Sum256 r2) ++ H.Sum256 r3)⟩,
              ⟨some 6, none, none, H.Sum256 r4⟩,
              ⟨some 4, some 3, some 5, H.Sum256 (H.Sum256 r3 ++ H.Sum256 r4)⟩,
              ⟨some 10, none, none, H.Sum256 r5⟩,
              ⟨none, some 4, some 7,
                H.Sum256 (H.Sum256 (H.Sum256 (H.Sum256 r1 ++ H.Sum256 r2) ++ H.Sum256 r3)
                  ++ H.Sum256 r5)⟩,
              ⟨some 10, none, none, H.Sum256 r6⟩,
              ⟨some 8, some 7, some 9, H.Sum256 (H.Sum256 r5 ++ H.Sum256 r6)⟩],
      tree := ⟨some 8, [some 0, some 1, some 3, some 5, some 7, some 9]⟩ }
  | [r1, r2, r3, r4, r5, r6, r7] =>
    { mem := [⟨some 2, none, none, H.Sum256 r1⟩,
              ⟨some 2, none, none, H.Sum256 r2⟩,
              ⟨some 4, some 0, some 1, H.Sum256 (H.Sum256 r1 ++ H.Sum256 r2)⟩,
              ⟨some 6, none, none, H.Sum256 r3⟩,
              ⟨some 8, some 2, some 3,
                H.Sum256 (H.Sum256 (H.Sum256 r1 ++ H.Sum256 r2) ++ H.Sum256 r3)⟩,
              ⟨some 6, none, none, H.Sum256 r4⟩,
              ⟨some 4, some 3, some 5, H.Sum256 (H.Sum256 r3 ++ H.Sum256 r4)⟩,
              ⟨some 12, none, none, H.Sum256 r5⟩,
              ⟨none, some 4, some 7,
                H.Sum256 (H.Sum256 (H.Sum256 (H.Sum256 r1 ++ H.Sum256 r2) ++ H.Sum256 r3)
                  ++ H.Sum256 r5)⟩,
              ⟨some 10, none, none, H.Sum256 r6⟩,
              ⟨some 8, some 7, some 9, H.Sum256 (H.Sum256 r5 ++ H.Sum256 r6)⟩,
              ⟨some 12, none, none, H.Sum256 r7⟩,
              ⟨some 10, some 7, some 11, H.Sum256 (H.Sum256 r5 ++ H.Sum256 r7)⟩],
      tree := ⟨some 8, [some 0, some 1, some 3, some 5, some 7, some 9, some 11]⟩ }
  | _ => emptyState

/-- The part of `AddRecord` after the first-insertion case, up to and including
`t.leafs = append(t.leafs, newLeaf)`: the state then, and the pointer
`newLeaf.parent` on which `updateChecksums` is called next. -/
def splice (H : HashPrim) (s : State) (r : Bytes) : Except Fault (State × Ptr) :=
  let (newLeaf, m0) := new s.mem
  do
    let m1 ← wr m0 (some newLeaf) (fun c => { c with checksum := H.Sum256 r })
    let (newLeafParent, m2) := new m1
    let m3 ← wr m2 (some newLeaf) (fun c => { c with parent := some newLeafParent })
    let m4 ← wr m3 (some newLeafParent) (fun c => { c with right := some newLeaf })
    let cnt := s.tree.leafs.length
    let filledSubtree ← findFilled cnt m4 cnt s.tree.root
    let fs ← rd m4 filledSubtree
    let m5 ← wr m4 (some newLeafParent) (fun c => { c with parent := fs.parent })
    let m6 ← wr m5 (some newLeafParent) (fun c => { c with left := filledSubtree })
    let m7 ← wr m6 filledSubtree (fun c => { c with parent := some newLeafParent })
    let nlp ← rd m7 (some newLeafParent)
    let root := if nlp.parent = none then some newLeafParent else s.tree.root
    let leafs := s.tree.leafs ++ [some newLeaf]
    let nl ← rd m7 (some newLeaf)
    .ok ({ mem := m7, tree := { root := root, leafs := leafs } }, nl.parent)

/-- The method `updateChecksums`, returning also the addresses of the nodes whose
checksum it recomputes, in the order of the calls. -/
def updateChecksumsT (H : HashPrim) : Nat → Mem → Ptr → Except Fault (Mem × List Nat)
  | 0, _, _ => .error .diverge
  | fuel + 1, m, n => do
    let nd ← rd m n
    let l ← rd m nd.left
    let r ← rd m nd.right
    let m1 ← wr m n (fun c => { c with checksum := H.Sum256 (l.checksum ++ r.checksum) })
    match nd.parent with
    | none => .ok (m1, n.toList)
    | some p => do
      let (m2, visited) ← updateChecksumsT H fuel m1 (some p)
      .ok (m2, n.toList ++ visited)

/-- The merge point of a tree: the result of the loop of `AddRecord` run from the
root with the current number of leaves. -/
def mergePoint (s : State) : Except Fault Ptr :=
  findFilled s.tree.leafs.length s.mem s.tree.leafs.length s.tree.root

/-- The addresses on the parent chain that starts at `p`, in order; `fuel` bounds
its length. -/
def parentChain : Nat → Mem → Ptr → List Nat
  | 0, _, _ => []
  | _ + 1, _, none => []
  | fuel + 1, m, some a =>
    match m[a]? with
    | none => []
    | some nd => a :: parentChain fuel m nd.parent

/-- The leaves (cells without children) of the tree hanging from `p` through the
child links, left to right; `fuel` bounds the depth. -/
def leavesUnder : Nat → Mem → Ptr → List Nat
  | 0, _, _ => []
  | _ + 1, _, none => []
  | fuel + 1, m, some a =>
    match m[a]? with
    | none => []
    | some nd =>
      if nd.left = none ∧ nd.right = none then [a]
      else leavesUnder fuel m nd.left ++ leavesUnder fuel m nd.right

/-- The number of leaves of the tree hanging from `p` when that tree is a complete
(perfectly balanced) binary tree, `none` when it is not. -/
def perfectSize : Nat → Mem → Ptr → Option Nat
  | 0, _, _ => none
  | _ + 1, _, none => none
  | fuel + 1, m, some a =>
    match m[a]? with
    | none => none
    | some nd =>
      if nd.left = none ∧ nd.right = none then some 1
      else
        match perfectSize fuel m nd.left, perfectSize fuel m nd.right with
        | some i, some j => if i = j then some (i + j) else none
        | _, _ => none

/-- The decomposition of the tree hanging from `p`, read downward along the right
links: the leaf counts of the complete subtrees met, `none` when a left
subtree on the way is not complete. -/
def peaks : Nat → Mem → Ptr → Option (List Nat)
  | 0, _, _ => none
  | _ + 1, _, none => some []
  | fuel + 1, m, some a =>
    match perfectSize (fuel + 1) m (some a) with
    | some k => some [k]
    | none =>
      match m[a]? with
      | none => none
      | some nd =>
        match perfectSize fuel m nd.left, peaks fuel m nd.right with
        | some k, some rest => some (k :: rest)
        | _, _ => none

/-- The powers of two in the binary expansion of `n`, largest first. -/
def specPeaks (n : Nat) : List Nat :=
  ((List.range (n + 1)).reverse).filter (fun k => isPowerOfTwo k && ((n &&& k) != 0))

/-- The value of the least-significant set bit of `n`. -/
def lsb (n : Nat) : Nat := n - (n &&& (n - 1))

/-- After a call of `AddRecord`, the parent of the leaf it appended: the pointer
`newLeaf.parent` on which the call ran `updateChecksums`, the new internal
node (nil after the first insertion, which runs none). -/
def newLeafParentOf (t : State) : Ptr :=
  match t.tree.leafs.getLast? with
  | some (some a) =>
    match t.mem[a]? with
    | some nd => nd.parent
    | none => none
  | _ => none

/-! ## Evaluation lemmas -/

theorem isPowerOfTwo_vals :
    isPowerOfTwo 1 = true ∧ isPowerOfTwo 2 = true ∧ isPowerOfTwo 3 = false ∧
    isPowerOfTwo 4 = true ∧ isPowerOfTwo 5 = false ∧ isPowerOfTwo 6 = false ∧
    isPowerOfTwo 7 = false := by decide

theorem topBit_vals : topBit 3 = 2 ∧ topBit 5 = 4 ∧ topBit 6 = 4 ∧ topBit 7 = 4 := by
  simp [topBit, Nat.log2]

theorem AddRecord_reached_0 (H : HashPrim) (r : Bytes) :
    AddRecord H emptyState r = .ok (reached H [r]) := by
  simp [AddRecord, reached, emptyState, new, wr, zeroNode, bind, Except.bind]

theorem AddRecord_reached_1 (H : HashPrim) (r1 r : Bytes) :
    AddRecord H (reached H [r1]) r = .ok (reached H [r1, r]) := by
  simp [AddRecord, reached, new, wr, rd, zeroNode, findFilled, updateChecksums, bind,
    Except.bind, isPowerOfTwo_vals, topBit_vals]

theorem AddRecord_reached_2 (H : HashPrim) (r1 r2 r : Bytes) :
    AddRecord H (reached H [r1, r2]) r = .ok (reached H [r1, r2, r]) := by
  simp [AddRecord, reached, new, wr, rd, zeroNode, findFilled, updateChecksums, bind,
    Except.bind, isPowerOfTwo_vals, topBit_vals]

theorem AddRecord_reached_3 (H : HashPrim) (r1 r2 r3 r : Bytes) :
    AddRecord H (reached H [r1, r2, r3]) r = .ok (reached H [r1, r2, r3, r]) := by
  simp [AddRecord, reached, new, wr, rd, zeroNode, findFilled, updateChecksums, bind,
    Except.bind, isPowerOfTwo_vals, topBit_vals]

theorem AddRecord_reached_4 (H : HashPrim) (r1 r2 r3 r4 r : Bytes) :
    AddRecord H (reached H [r1, r2, r3, r4]) r = .ok (reached H [r1, r2, r3, r4, r]) := by
  simp [AddRecord, reached, new, wr, rd, zeroNode, findFilled, updateChecksums, bind,
    Except.bind, isPowerOfTwo_vals, topBit_vals]

theorem AddRecord_reached_5 (H : HashPrim) (r1 r2 r3 r4 r5 r : Bytes) :
    AddRecord H (reached H [r1, r2, r3, r4, r5]) r =
      .ok (reached H [r1, r2, r3, r4, r5, r]) := by
  simp [AddRecord, reached, new, wr, rd, zeroNode, findFilled, updateChecksums, bind,
    Except.bind, isPowerOfTwo_vals, topBit_vals]

theorem AddRecord_reached_6 (H : HashPrim) (r1 r2 r3 r4 r5 r6 r : Bytes) :
    AddRecord H (reached H [r1, r2, r3, r4, r5, r6]) r =
      .ok (reached H [r1, r2, r3, r4, r5, r6, r]) := by
  simp [AddRecord, reached, new, wr, rd, zeroNode, findFilled, updateChecksums, bind,
    Except.bind, isPowerOfTwo_vals, topBit_vals]

theorem AddRecord_reached_7 (H : HashPrim) (r1 r2 r3 r4 r5 r6 r7 r : Bytes) :
    AddRecord H (reached H [r1, r2, r3, r4, r5, r6, r7]) r = .error .nilDeref := by
  simp [AddRecord, reached, new, wr, rd, zeroNode, findFilled, updateChecksums, bind,
    Except.bind, isPowerOfTwo_vals, topBit_vals]


theorem specMTH_three (H : HashPrim) (r1 r2 r3 : Bytes) :
    specMTH H [r1, r2, r3] =
      H.Sum256 (H.Sum256 (H.Sum256 r1 ++ H.Sum256 r2) ++ H.Sum256 r3) := by
  simp [specMTH, specMTHAux, pow2Below, Nat.log2]

theorem specMTH_four (H : HashPrim) (r1 r2 r3 r4 : Bytes) :
    specMTH H [r1, r2, r3, r4] =
      H.Sum256 (H.Sum256 (H.Sum256 r1 ++ H.Sum256 r2)
        ++ H.Sum256 (H.Sum256 r3 ++ H.Sum256 r4)) := by
  simp [specMTH, specMTHAux, pow2Below, Nat.log2]

/-- Up to seven appends to the empty tree all return, in the state written out
in `reached`. -/
theorem AddRecords_reached (H : HashPrim) :
    (rs : List Bytes) → rs.length ≤ 7 → AddRecords H emptyState rs = .ok (reached H rs)
  | [], _ => rfl
  | [r1], _ => by
    simp [AddRecords, bind, Except.bind, AddRecord_reached_0]
  | [r1, r2], _ => by
    simp [AddRecords, bind, Except.bind, AddRecord_reached_0, AddRecord_reached_1]
  | [r1, r2, r3], _ => by
    simp [AddRecords, bind, Except.bind, AddRecord_reached_0, AddRecord_reached_1,
      AddRecord_reached_2]
  | [r1, r2, r3, r4], _ => by
    simp [AddRecords, bind, Except.bind, AddRecord_reached_0, AddRecord_reached_1,
      AddRecord_reached_2, AddRecord_reached_3]
  | [r1, r2, r3, r4, r5], _ => by
    simp [AddRecords, bind, Except.bind, AddRecord_reached_0, AddRecord_reached_1,
      AddRecord_reached_2, AddRecord_reached_3, AddRecord_reached_4]
  | [r1, r2, r3, r4, r5, r6], _ => by
    simp [AddRecords, bind, Except.bind, AddRecord_reached_0, AddRecord_reached_1,
      AddRecord_reached_2, AddRecord_reached_3, AddRecord_reached_4, AddRecord_reached_5]
  | [r1, r2, r3, r4, r5, r6, r7], _ => by
    simp [AddRecords, bind, Except.bind, AddRecord_reached_0, AddRecord_reached_1,
      AddRecord_reached_2, AddRecord_reached_3, AddRecord_reached_4, AddRecord_reached_5,
      AddRecord_reached_6]
  | _ :: _ :: _ :: _ :: _ :: _ :: _ :: _ :: _, h => by
    simp at h

/-- Eight or more appends to the empty tree: the eighth call dereferences nil. -/
theorem AddRecords_eight (H : HashPrim) (r1 r2 r3 r4 r5 r6 r7 r8 : Bytes)
    (rs : List Bytes) :
    AddRecords H emptyState (r1 :: r2 :: r3 :: r4 :: r5 :: r6 :: r7 :: r8 :: rs) =
      .error .nilDeref := by
  simp [AddRecords, bind, Except.bind, AddRecord_reached_0, AddRecord_reached_1,
    AddRecord_reached_2, AddRecord_reached_3, AddRecord_reached_4, AddRecord_reached_5,
    AddRecord_reached_6, AddRecord_reached_7]

/-- The states reachable from the empty tree are the eight of `reached`. -/
theorem AddRecords_ok (H : HashPrim) (rs : List Bytes) (s : State)
    (h : AddRecords H emptyState rs = .ok s) : rs.length ≤ 7 ∧ s = reached H rs := by
  by_cases hl : rs.length ≤ 7
  · rw [AddRecords_reached H rs hl] at h
    exact ⟨hl, by injection h with h; exact h.symm⟩
  · exfalso
    match rs, hl with
    | r1 :: r2 :: r3 :: r4 :: r5 :: r6 :: r7 :: r8 :: t, _ =>
      rw [AddRecords_eight] at h
      cases h
    | [], hl => simp at hl
    | [_], hl => simp at hl
    | [_, _], hl => simp at hl
    | [_, _, _], hl => simp at hl
    | [_, _, _, _], hl => simp at hl
    | [_, _, _, _, _], hl => simp at hl
    | [_, _, _, _, _, _], hl => simp at hl
    | [_, _, _, _, _, _, _], hl => simp at hl

/-- A call of `AddRecord` that returns has made `leafs` one longer. -/
theorem NumRecords_AddRecord (H : HashPrim) (s t : State) (r : Bytes)
    (h : AddRecord H s r = .ok t) : NumRecords t = NumRecords s + 1 := by
  unfold AddRecord at h
  simp only [bind, Except.bind, new] at h
  repeat' split at h
  all_goals cases h
  all_goals simp [NumRecords]

/-- The root hash after up to seven appends is the checksum read in `reached`. -/
theorem rootAfter_reached (H : HashPrim) (rs : List Bytes) (h : rs.length ≤ 7) :
    rootAfter H rs = MerkleRootHash H (reached H rs) := by
  simp [rootAfter, AddRecords_reached H rs h, bind, Except.bind]

theorem rootAfter_one (H : HashPrim) (r1 : Bytes) :
    rootAfter H [r1] = .ok (H.Sum256 r1) := by
  rw [rootAfter_reached H _ (by simp)]
  simp [MerkleRootHash, reached, rd, bind, Except.bind]

theorem rootAfter_two (H : HashPrim) (r1 r2 : Bytes) :
    rootAfter H [r1, r2] = .ok (H.Sum256 (H.Sum256 r1 ++ H.Sum256 r2)) := by
  rw [rootAfter_reached H _ (by simp)]
  simp [MerkleRootHash, reached, rd, bind, Except.bind]

theorem rootAfter_three (H : HashPrim) (r1 r2 r3 : Bytes) :
    rootAfter H [r1, r2, r3] =
      .ok (H.Sum256 (H.Sum256 (H.Sum256 r1 ++ H.Sum256 r2) ++ H.Sum256 r3)) := by
  rw [rootAfter_reached H _ (by simp)]
  simp [MerkleRootHash, reached, rd, bind, Except.bind]

theorem rootAfter_four (H : HashPrim) (r1 r2 r3 r4 : Bytes) :
    rootAfter H [r1, r2, r3, r4] =
      .ok (H.Sum256 (H.Sum256 (H.Sum256 r1 ++ H.Sum256 r2) ++ H.Sum256 r3)) := by
  rw [rootAfter_reached H _ (by simp)]
  simp [MerkleRootHash, reached, rd, bind, Except.bind]

theorem encHash_injective : Function.Injective encHash.Sum256 := by
  intro a b h
  simp only [encHash, List.cons.injEq, and_true] at h
  exact Encodable.encode_injective h

/-- No input of `encHash` starts with its own digest. -/
theorem encHash_not_self (x t : Bytes) : x ≠ encHash.Sum256 x ++ t := by
  intro h
  cases x with
  | nil => simp [encHash] at h
  | cons a l =>
    simp only [encHash, List.cons_append, List.cons.injEq] at h
    have h1 := h.1
    rw [Encodable.encode_list_cons] at h1
    have h2 : a ≤ Nat.pair a (Encodable.encode l) := Nat.left_le_pair _ _
    simp only [Encodable.encode_nat] at h1
    exact Nat.not_succ_le_self _ (Nat.le_trans (Nat.le_of_eq h1.symm) h2)

/-- Two concatenations of digests are equal only when the digests are. -/
theorem digest_append_inj (H : HashPrim) (a b c d : Bytes)
    (h : H.Sum256 a ++ H.Sum256 b = H.Sum256 c ++ H.Sum256 d) :
    H.Sum256 a = H.Sum256 c ∧ H.Sum256 b = H.Sum256 d :=
  List.append_inj h (by rw [H.size, H.size])

/-- A run of `AddRecord` calls that returns has made `leafs` longer by the number
of calls. -/
theorem NumRecords_AddRecords (H : HashPrim) (rs : List Bytes) :
    ∀ (s t : State), AddRecords H s rs = .ok t → NumRecords t = NumRecords s + rs.length := by
  induction rs with
  | nil =>
    intro s t h
    simp only [AddRecords] at h
    cases h
    rfl
  | cons r rs ih =>
    intro s t h
    simp only [AddRecords, bind, Except.bind] at h
    split at h
    · cases h
    · rename_i u hu
      rw [ih u t h, NumRecords_AddRecord H s u r hu, List.length_cons]
      omega

/-- Two records with different hashes, appended in the two orders: the root
hashes differ as soon as the primitive does not collide on the two
concatenations of the records' hashes. -/
theorem rootAfter_swap_ne (H : HashPrim) (A B : Bytes)
    (hne : H.Sum256 A ≠ H.Sum256 B)
    (hnc : H.Sum256 (H.Sum256 A ++ H.Sum256 B) = H.Sum256 (H.Sum256 B ++ H.Sum256 A) →
      H.Sum256 A ++ H.Sum256 B = H.Sum256 B ++ H.Sum256 A) :
    rootAfter H [A, B] ≠ rootAfter H [B, A] := by
  rw [rootAfter_two, rootAfter_two]
  intro h
  exact hne (digest_append_inj H _ _ _ _ (hnc (Except.ok.inj h))).1

/-! ## The claims -/

/-- C1 (the code departs from it): after four appends `MerkleRootHash` is the
canonical hash `MTH` of the first three records, not of all four; for the
collision-free primitive `encHash` and the records `[1], [2], [3], [4]` it differs
from `MTH` of the four. -/
theorem C1_root_of_four_is_MTH_of_three :
    (∀ (H : HashPrim) (r1 r2 r3 r4 : Bytes),
      rootAfter H [r1, r2, r3, r4] = .ok (specMTH H [r1, r2, r3])) ∧
    rootAfter encHash [[1], [2], [3], [4]] ≠ .ok (specMTH encHash [[1], [2], [3], [4]]) := by
  refine ⟨fun H r1 r2 r3 r4 => ?_, ?_⟩
  · rw [rootAfter_four, specMTH_three]
  · rw [rootAfter_four, specMTH_four]
    intro h
    have h1 := encHash_injective (Except.ok.inj h)
    have h2 := encHash_injective (List.append_cancel_left h1)
    have h3 := congrArg List.length h2
    simp [encHash] at h3

/-- C2 (the code departs from it): after appending `r1, r2, r3, r4` to the empty
tree `MerkleRootHash` is `hash (hash (hash r1 ++ hash r2) ++ hash r3)`: the
fourth record is not in it, and the tree hanging from the root is not the
balanced one. -/
theorem C2_root_of_four (H : HashPrim) (r1 r2 r3 r4 : Bytes) :
    rootAfter H [r1, r2, r3, r4] =
      .ok (H.Sum256 (H.Sum256 (H.Sum256 r1 ++ H.Sum256 r2) ++ H.Sum256 r3)) :=
  rootAfter_four H r1 r2 r3 r4

/-- C3 (the code departs from it): the first seven appends to the empty tree
return, and the eighth does not: the walk from the root over the right links
ends on nil, and `AddRecord` dereferences it. -/
theorem C3_eighth_append_dereferences_nil (H : HashPrim)
    (r1 r2 r3 r4 r5 r6 r7 r8 : Bytes) :
    AddRecords H emptyState [r1, r2, r3, r4, r5, r6, r7] =
      .ok (reached H [r1, r2, r3, r4, r5, r6, r7]) ∧
    findFilled 7 (reached H [r1, r2, r3, r4, r5, r6, r7]).mem 7
      (reached H [r1, r2, r3, r4, r5, r6, r7]).tree.root = .ok none ∧
    AddRecord H (reached H [r1, r2, r3, r4, r5, r6, r7]) r8 = .error .nilDeref ∧
    AddRecords H emptyState [r1, r2, r3, r4, r5, r6, r7, r8] = .error .nilDeref := by
  refine ⟨AddRecords_reached H _ (by simp), ?_, AddRecord_reached_7 H _ _ _ _ _ _ _ _,
    AddRecords_eight H _ _ _ _ _ _ _ _ []⟩
  simp [reached, rd, findFilled, bind, Except.bind, isPowerOfTwo_vals, topBit_vals]

/-- C4, a counterexample: with the collision-free primitive `encHash`, the one
record `hash [1] ++ hash [2]` and the two records `[1], [2]` give the same
root hash. -/
theorem C4_counterexample :
    Function.Injective encHash.Sum256 ∧
    [encHash.Sum256 [1] ++ encHash.Sum256 [2]] ≠ [[1], [2]] ∧
    rootAfter encHash [encHash.Sum256 [1] ++ encHash.Sum256 [2]] =
      rootAfter encHash [[1], [2]] := by
  refine ⟨encHash_injective, by simp, ?_⟩
  rw [rootAfter_one, rootAfter_two]

/-- C4 as amended: with an injective hash primitive, two record sequences of the
same length, at most three, that give the same `MerkleRootHash` are equal. -/
theorem C4_root_commits_same_length (H : HashPrim)
    (hinj : Function.Injective H.Sum256) (xs ys : List Bytes)
    (hlen : xs.length = ys.length) (h3 : xs.length ≤ 3)
    (heq : rootAfter H xs = rootAfter H ys) : xs = ys := by
  match xs, ys, hlen, h3, heq with
  | [], [], _, _, _ => rfl
  | [x1], [y1], _, _, heq =>
    rw [rootAfter_one, rootAfter_one] at heq
    rw [hinj (Except.ok.inj heq)]
  | [x1, x2], [y1, y2], _, _, heq =>
    rw [rootAfter_two, rootAfter_two] at heq
    have h := digest_append_inj H _ _ _ _ (hinj (Except.ok.inj heq))
    rw [hinj h.1, hinj h.2]
  | [x1, x2, x3], [y1, y2, y3], _, _, heq =>
    rw [rootAfter_three, rootAfter_three] at heq
    have h := List.append_inj (hinj (Except.ok.inj heq)) (by rw [H.size, H.size])
    have h12 := digest_append_inj H _ _ _ _ (hinj h.1)
    rw [hinj h12.1, hinj h12.2, hinj h.2]

/-- C4 as amended, at `encHash` and the sequence `[1], [2]`. -/
theorem C4_root_commits_same_length_witness :
    Function.Injective encHash.Sum256 ∧
    ([[1], [2]] : List Bytes).length = ([[1], [2]] : List Bytes).length ∧
    ([[1], [2]] : List Bytes).length ≤ 3 ∧
    rootAfter encHash [[1], [2]] = rootAfter encHash [[1], [2]] ∧
    ([[1], [2]] : List Bytes) = [[1], [2]] :=
  ⟨encHash_injective, rfl, by simp, rfl,
    C4_root_commits_same_length encHash encHash_injective [[1], [2]] [[1], [2]] rfl
      (by simp) rfl⟩

/-- C5, a counterexample: with the collision-free primitive `encHash`, appending
the empty record to the empty tree returns and leaves `MerkleRootHash` as it
was, the hash of the empty byte sequence. -/
theorem C5_counterexample :
    Function.Injective encHash.Sum256 ∧
    AddRecord encHash emptyState [] = .ok (reached encHash [[]]) ∧
    MerkleRootHash encHash (reached encHash [[]]) = MerkleRootHash encHash emptyState := by
  refine ⟨encHash_injective, AddRecord_reached_0 encHash [], ?_⟩
  simp [MerkleRootHash, reached, emptyState, rd, bind, Except.bind]

/-- C5 as amended: with a hash primitive that is injective and never maps an
input to a digest the input starts with, on a tree reached from the empty one
whose record count is zero or a power of two, `AddRecord r` returns and
`MerkleRootHash` afterwards differs from `MerkleRootHash` before, the empty
record on the empty tree apart. -/
theorem C5_root_changes (H : HashPrim) (hinj : Function.Injective H.Sum256)
    (hpre : ∀ x t : Bytes, x ≠ H.Sum256 x ++ t)
    (rs : List Bytes) (s : State) (hs : AddRecords H emptyState rs = .ok s)
    (hn : rs.length = 0 ∨ isPowerOfTwo rs.length = true)
    (r : Bytes) (hr : rs ≠ [] ∨ r ≠ []) :
    ∃ t, AddRecord H s r = .ok t ∧ MerkleRootHash H t ≠ MerkleRootHash H s := by
  obtain ⟨hl, rfl⟩ := AddRecords_ok H rs s hs
  match rs, hl, hn, hr with
  | [], _, _, hr =>
    refine ⟨_, AddRecord_reached_0 H r, ?_⟩
    simp only [MerkleRootHash, reached, emptyState, rd, bind, Except.bind,
      List.getElem?_cons_zero]
    intro h
    rcases hr with hr | hr
    · exact hr rfl
    · exact hr (hinj (Except.ok.inj h))
  | [r1], _, _, _ =>
    refine ⟨_, AddRecord_reached_1 H r1 r, ?_⟩
    simp [MerkleRootHash, reached, rd, bind, Except.bind]
    intro h
    exact hpre _ _ (hinj h).symm
  | [r1, r2], _, _, _ =>
    refine ⟨_, AddRecord_reached_2 H r1 r2 r, ?_⟩
    simp [MerkleRootHash, reached, rd, bind, Except.bind]
    intro h
    exact hpre _ _ (hinj h).symm
  | [r1, r2, r3, r4], _, _, _ =>
    refine ⟨_, AddRecord_reached_4 H r1 r2 r3 r4 r, ?_⟩
    simp [MerkleRootHash, reached, rd, bind, Except.bind]
    intro h
    exact hpre _ _ (hinj h).symm
  | [_, _, _], _, hn, _ => simp [isPowerOfTwo_vals] at hn
  | [_, _, _, _, _], _, hn, _ => simp [isPowerOfTwo_vals] at hn
  | [_, _, _, _, _, _], _, hn, _ => simp [isPowerOfTwo_vals] at hn
  | [_, _, _, _, _, _, _], _, hn, _ => simp [isPowerOfTwo_vals] at hn
  | _ :: _ :: _ :: _ :: _ :: _ :: _ :: _ :: _, hl, _, _ => simp at hl

/-- C5 as amended, at `encHash`, the tree holding the record `[1]` and the new
record `[2]`. -/
theorem C5_root_changes_witness :
    Function.Injective encHash.Sum256 ∧
    (∀ x t : Bytes, x ≠ encHash.Sum256 x ++ t) ∧
    AddRecords encHash emptyState [[1]] = .ok (reached encHash [[1]]) ∧
    isPowerOfTwo ([[1]] : List Bytes).length = true ∧
    ∃ t, AddRecord encHash (reached encHash [[1]]) [2] = .ok t ∧
      MerkleRootHash encHash t ≠ MerkleRootHash encHash (reached encHash [[1]]) :=
  ⟨encHash_injective, encHash_not_self, AddRecords_reached encHash [[1]] (by simp),
    by decide,
    C5_root_changes encHash encHash_injective encHash_not_self [[1]] _
      (AddRecords_reached encHash [[1]] (by simp)) (Or.inr (by decide)) [2]
      (Or.inl (by simp))⟩

/-- C6: after appending `r1, r2, r3` to the empty tree, `MerkleRootHash` is
`hash (hash (hash r1 ++ hash r2) ++ hash r3)`. -/
theorem C6_root_of_three (H : HashPrim) (r1 r2 r3 : Bytes) :
    rootAfter H [r1, r2, r3] =
      .ok (H.Sum256 (H.Sum256 (H.Sum256 r1 ++ H.Sum256 r2) ++ H.Sum256 r3)) :=
  rootAfter_three H r1 r2 r3

/-- C7: after appending `r1` then `r2` to the empty tree, `MerkleRootHash` is
`hash (hash r1 ++ hash r2)`. -/
theorem C7_root_of_two (H : HashPrim) (r1 r2 : Bytes) :
    rootAfter H [r1, r2] = .ok (H.Sum256 (H.Sum256 r1 ++ H.Sum256 r2)) :=
  rootAfter_two H r1 r2

/-- C8: on the zero-value tree `MerkleRootHash` returns the hash of the empty byte
sequence and `NumRecords` returns 0. -/
theorem C8_empty_tree (H : HashPrim) :
    MerkleRootHash H emptyState = .ok (H.Sum256 []) ∧ NumRecords emptyState = 0 :=
  ⟨rfl, rfl⟩

/-- C9: on a tree reached from the empty one by the appends `rs`, `NumRecords` is
the number of those appends, and an `AddRecord` call that returns leaves
`NumRecords` exactly one higher. -/
theorem C9_NumRecords_counts_appends (H : HashPrim) (rs : List Bytes) (s : State)
    (hs : AddRecords H emptyState rs = .ok s) (r : Bytes) (t : State)
    (ht : AddRecord H s r = .ok t) :
    NumRecords s = rs.length ∧ NumRecords t = NumRecords s + 1 := by
  refine ⟨?_, NumRecords_AddRecord H s t r ht⟩
  rw [NumRecords_AddRecords H rs emptyState s hs]
  simp [NumRecords, emptyState]

/-- C9 at `padHash`: the tree holding `[1], [2]` and the new record `[3]`. -/
theorem C9_NumRecords_counts_appends_witness :
    AddRecords padHash emptyState [[1], [2]] = .ok (reached padHash [[1], [2]]) ∧
    AddRecord padHash (reached padHash [[1], [2]]) [3] =
      .ok (reached padHash [[1], [2], [3]]) ∧
    NumRecords (reached padHash [[1], [2]]) = 2 ∧
    NumRecords (reached padHash [[1], [2], [3]]) =
      NumRecords (reached padHash [[1], [2]]) + 1 :=
  ⟨AddRecords_reached padHash _ (by simp), AddRecord_reached_2 padHash _ _ _,
    C9_NumRecords_counts_appends padHash [[1], [2]] _
      (AddRecords_reached padHash _ (by simp)) [3] _ (AddRecord_reached_2 padHash _ _ _)⟩

/-- C10: for records `A`, `B` with different hashes, the root hash after `A` then
`B` differs from the root hash after `B` then `A`.  The hash primitive is
collision-free (injective), as the specification assumes of it. -/
theorem C10_order_sensitive (H : HashPrim) (hinj : Function.Injective H.Sum256)
    (A B : Bytes) (hne : H.Sum256 A ≠ H.Sum256 B) :
    rootAfter H [A, B] ≠ rootAfter H [B, A] :=
  rootAfter_swap_ne H A B hne (fun h => hinj h)

/-- C10 at `encHash` and the records `[1]`, `[2]`. -/
theorem C10_order_sensitive_witness :
    Function.Injective encHash.Sum256 ∧
    encHash.Sum256 [1] ≠ encHash.Sum256 [2] ∧
    rootAfter encHash [[1], [2]] ≠ rootAfter encHash [[2], [1]] :=
  ⟨encHash_injective, fun h => by simpa using encHash_injective h,
    C10_order_sensitive encHash encHash_injective [1] [2]
      (fun h => by simpa using encHash_injective h)⟩

/-! ## Lemmas on single calls -/

/-- One more call that returns, from a reachable state: both states are among
those of `reached`. -/
theorem step_reached (H : HashPrim) (rs : List Bytes) (s : State) (r : Bytes) (t : State)
    (hs : AddRecords H emptyState rs = .ok s) (ht : AddRecord H s r = .ok t) :
    rs.length ≤ 6 ∧ s = reached H rs ∧ t = reached H (rs ++ [r]) := by
  obtain ⟨hl, rfl⟩ := AddRecords_ok H rs s hs
  rcases rs with _ | ⟨r1, _ | ⟨r2, _ | ⟨r3, _ | ⟨r4, _ | ⟨r5, _ | ⟨r6, _ | ⟨r7, rs⟩⟩⟩⟩⟩⟩⟩
  · rw [show reached H [] = emptyState from rfl, AddRecord_reached_0] at ht
    exact ⟨by simp, rfl, (Except.ok.inj ht).symm⟩
  · rw [AddRecord_reached_1] at ht
    exact ⟨by simp, rfl, (Except.ok.inj ht).symm⟩
  · rw [AddRecord_reached_2] at ht
    exact ⟨by simp, rfl, (Except.ok.inj ht).symm⟩
  · rw [AddRecord_reached_3] at ht
    exact ⟨by simp, rfl, (Except.ok.inj ht).symm⟩
  · rw [AddRecord_reached_4] at ht
    exact ⟨by simp, rfl, (Except.ok.inj ht).symm⟩
  · rw [AddRecord_reached_5] at ht
    exact ⟨by simp, rfl, (Except.ok.inj ht).symm⟩
  · rw [AddRecord_reached_6] at ht
    exact ⟨by simp, rfl, (Except.ok.inj ht).symm⟩
  · rcases rs with _ | ⟨r8, rs⟩
    · rw [AddRecord_reached_7] at ht
      cases ht
    · simp at hl

/-- The traced `updateChecksums` computes the heap of `updateChecksums`. -/
theorem updateChecksums_eq_trace (H : HashPrim) (fuel : Nat) :
    ∀ (m : Mem) (p : Ptr),
      updateChecksums H fuel m p = (updateChecksumsT H fuel m p).map Prod.fst := by
  induction fuel with
  | zero => intro m p; rfl
  | succ f ih =>
    intro m p
    simp only [updateChecksums, updateChecksumsT, bind, Except.bind]
    cases rd m p with
    | error e => rfl
    | ok nd =>
      simp only []
      cases rd m nd.left with
      | error e => rfl
      | ok l =>
        simp only []
        cases rd m nd.right with
        | error e => rfl
        | ok r2 =>
          simp only []
          cases wr m p _ with
          | error e => rfl
          | ok m1 =>
            simp only []
            cases nd.parent with
            | none => rfl
            | some q =>
              simp only [ih]
              cases updateChecksumsT H f m1 (some q) with
              | error e => rfl
              | ok v => rfl

/-- On a tree that is not empty, `AddRecord` is `splice` followed by
`updateChecksums` on the pointer `splice` returns. -/
theorem AddRecord_eq_splice (H : HashPrim) (s : State) (r : Bytes)
    (h : s.tree.leafs ≠ []) :
    AddRecord H s r =
      (splice H s r).bind (fun up =>
        (updateChecksums H up.1.mem.length up.1.mem up.2).bind (fun m =>
          .ok { mem := m, tree := up.1.tree })) := by
  unfold AddRecord splice
  simp only [bind, Except.bind, new, if_neg h]
  repeat' split
  all_goals simp_all

/-! ## The claims on shape and links -/

/-- C11 (the code departs from it): after four appends the tree hanging from the
root has the three leaves `0, 1, 3` (the fourth leaf, cell `5`, is not in it)
and decomposes along the right links into complete subtrees of `2` and `1`
leaves, where the binary expansion of 4 asks for one of `4`; after three
appends the decomposition is that of the binary expansion of 3. -/
theorem C11_shape_after_four (H : HashPrim) (r1 r2 r3 r4 : Bytes) :
    AddRecords H emptyState [r1, r2, r3, r4] = .ok (reached H [r1, r2, r3, r4]) ∧
    leavesUnder (reached H [r1, r2, r3, r4]).mem.length (reached H [r1, r2, r3, r4]).mem
      (reached H [r1, r2, r3, r4]).tree.root = [0, 1, 3] ∧
    peaks (reached H [r1, r2, r3, r4]).mem.length (reached H [r1, r2, r3, r4]).mem
      (reached H [r1, r2, r3, r4]).tree.root = some [2, 1] ∧
    specPeaks 4 = [4] ∧
    peaks (reached H [r1, r2, r3]).mem.length (reached H [r1, r2, r3]).mem
      (reached H [r1, r2, r3]).tree.root = some (specPeaks 3) := by
  refine ⟨AddRecords_reached H _ (by simp), ?_, ?_, by decide, ?_⟩
  · simp [reached, leavesUnder]
  · simp [reached, peaks, perfectSize]
  · rw [show specPeaks 3 = [2, 1] by decide]
    simp [reached, peaks, perfectSize]

/-- C15 (the code departs from it): on the tree holding `r1, r2, r3` the merge
point is cell `3`, the right child of the root, cell `4`.  After
`AddRecord r4` the new internal node is cell `6`, with left child `3` and
parent `4`, but the right child of cell `4` is still `3`, and the checksum
of cell `4` is the hash over the checksum of cell `3`, not of cell `6`. -/
theorem C15_parent_slot_keeps_merge_point (H : HashPrim) (r1 r2 r3 r4 : Bytes) :
    mergePoint (reached H [r1, r2, r3]) = .ok (some 3) ∧
    (reached H [r1, r2, r3]).mem[3]? = some ⟨some 4, none, none, H.Sum256 r3⟩ ∧
    (reached H [r1, r2, r3]).mem[4]? = some ⟨none, some 2, some 3,
      H.Sum256 (H.Sum256 (H.Sum256 r1 ++ H.Sum256 r2) ++ H.Sum256 r3)⟩ ∧
    AddRecord H (reached H [r1, r2, r3]) r4 = .ok (reached H [r1, r2, r3, r4]) ∧
    (reached H [r1, r2, r3, r4]).mem[6]? = some ⟨some 4, some 3, some 5,
      H.Sum256 (H.Sum256 r3 ++ H.Sum256 r4)⟩ ∧
    (reached H [r1, r2, r3, r4]).mem[4]? = some ⟨none, some 2, some 3,
      H.Sum256 (H.Sum256 (H.Sum256 r1 ++ H.Sum256 r2) ++ H.Sum256 r3)⟩ := by
  refine ⟨?_, ?_, ?_, AddRecord_reached_3 H r1 r2 r3 r4, ?_, ?_⟩
  · simp [reached, mergePoint, findFilled, rd, bind, Except.bind, isPowerOfTwo_vals,
      topBit_vals]
  · simp [reached]
  · simp [reached]
  · simp [reached]
  · simp [reached]

/-- C16 (the code departs from it): on the tree holding four records the walk
makes no step and ends at the root, cell `4`, whose subtree has the three
leaves `0, 1, 3` and is not complete, where the least-significant set bit of 4
is 4; on the tree holding six records it ends at cell `7`, a single leaf,
where the least-significant set bit of 6 is 2. -/
theorem C16_merge_point_after_four (H : HashPrim) (r1 r2 r3 r4 r5 r6 : Bytes) :
    mergePoint (reached H [r1, r2, r3, r4]) = .ok (some 4) ∧
    leavesUnder (reached H [r1, r2, r3, r4]).mem.length (reached H [r1, r2, r3, r4]).mem
      (some 4) = [0, 1, 3] ∧
    perfectSize (reached H [r1, r2, r3, r4]).mem.length (reached H [r1, r2, r3, r4]).mem
      (some 4) = none ∧
    lsb 4 = 4 ∧
    mergePoint (reached H [r1, r2, r3, r4, r5, r6]) = .ok (some 7) ∧
    perfectSize (reached H [r1, r2, r3, r4, r5, r6]).mem.length
      (reached H [r1, r2, r3, r4, r5, r6]).mem (some 7) = some 1 ∧
    lsb 6 = 2 := by
  refine ⟨?_, ?_, ?_, by decide, ?_, ?_, by decide⟩
  · simp [reached, mergePoint, findFilled, isPowerOfTwo_vals]
  · simp [reached, leavesUnder]
  · simp [reached, perfectSize]
  · simp [reached, mergePoint, findFilled, rd, bind, Except.bind, isPowerOfTwo_vals,
      topBit_vals]
  · simp [reached, perfectSize]

/-- C17: on a tree reached from the empty one whose number of leaves is a power of
two, the walk makes no step (it returns the root with no iteration allowed),
and `AddRecord r` returns with a new root, a cell not there before, without
parent, whose left child is the old root and whose right child is the new
leaf; `MerkleRootHash` afterwards is `hash (old ++ hash r)` for `old` the
`MerkleRootHash` before. -/
theorem C17_power_of_two_step (H : HashPrim) (rs : List Bytes) (s : State)
    (hs : AddRecords H emptyState rs = .ok s)
    (hn : isPowerOfTwo rs.length = true) (r : Bytes) :
    findFilled 0 s.mem s.tree.leafs.length s.tree.root = .ok s.tree.root ∧
    ∃ (t : State) (M L : Nat) (nd : node) (old : Bytes),
      AddRecord H s r = .ok t ∧ t.tree.root = some M ∧ s.mem[M]? = none ∧
      t.mem[M]? = some nd ∧ nd.parent = none ∧ nd.left = s.tree.root ∧
      nd.right = some L ∧ t.tree.leafs = s.tree.leafs ++ [some L] ∧
      MerkleRootHash H s = .ok old ∧
      MerkleRootHash H t = .ok (H.Sum256 (old ++ H.Sum256 r)) := by
  obtain ⟨hl, rfl⟩ := AddRecords_ok H rs s hs
  rcases rs with _ | ⟨r1, _ | ⟨r2, _ | ⟨r3, _ | ⟨r4, _ | ⟨r5, _ | ⟨r6, _ | ⟨r7, rs⟩⟩⟩⟩⟩⟩⟩
  · simp [isPowerOfTwo] at hn
  · refine ⟨by simp [reached, findFilled, isPowerOfTwo_vals],
      _, 2, 1, ⟨none, some 0, some 1, H.Sum256 (H.Sum256 r1 ++ H.Sum256 r)⟩, H.Sum256 r1,
      AddRecord_reached_1 H r1 r, ?_⟩
    simp [reached, MerkleRootHash, rd, bind, Except.bind]
  · refine ⟨by simp [reached, findFilled, isPowerOfTwo_vals],
      _, 4, 3, ⟨none, some 2, some 3,
        H.Sum256 (H.Sum256 (H.Sum256 r1 ++ H.Sum256 r2) ++ H.Sum256 r)⟩,
      H.Sum256 (H.Sum256 r1 ++ H.Sum256 r2), AddRecord_reached_2 H r1 r2 r, ?_⟩
    simp [reached, MerkleRootHash, rd, bind, Except.bind]
  · simp [isPowerOfTwo_vals] at hn
  · refine ⟨by simp [reached, findFilled, isPowerOfTwo_vals],
      _, 8, 7, ⟨none, some 4, some 7,
        H.Sum256 (H.Sum256 (H.Sum256 (H.Sum256 r1 ++ H.Sum256 r2) ++ H.Sum256 r3)
          ++ H.Sum256 r)⟩,
      H.Sum256 (H.Sum256 (H.Sum256 r1 ++ H.Sum256 r2) ++ H.Sum256 r3),
      AddRecord_reached_4 H r1 r2 r3 r4 r, ?_⟩
    simp [reached, MerkleRootHash, rd, bind, Except.bind]
  · simp [isPowerOfTwo_vals] at hn
  · simp [isPowerOfTwo_vals] at hn
  · rcases rs with _ | ⟨r8, rs⟩
    · simp [isPowerOfTwo_vals] at hn
    · simp at hl

/-- C17 at `padHash` and the tree holding `[1], [2]`. -/
theorem C17_power_of_two_step_witness :
    AddRecords padHash emptyState [[1], [2]] = .ok (reached padHash [[1], [2]]) ∧
    isPowerOfTwo ([[1], [2]] : List Bytes).length = true ∧
    ∃ (t : State) (M L : Nat) (nd : node) (old : Bytes),
      AddRecord padHash (reached padHash [[1], [2]]) [3] = .ok t ∧ t.tree.root = some M ∧
      (reached padHash [[1], [2]]).mem[M]? = none ∧
      t.mem[M]? = some nd ∧ nd.parent = none ∧
      nd.left = (reached padHash [[1], [2]]).tree.root ∧
      nd.right = some L ∧
      t.tree.leafs = (reached padHash [[1], [2]]).tree.leafs ++ [some L] ∧
      MerkleRootHash padHash (reached padHash [[1], [2]]) = .ok old ∧
      MerkleRootHash padHash t = .ok (padHash.Sum256 (old ++ padHash.Sum256 [3])) :=
  ⟨AddRecords_reached padHash _ (by simp), by decide,
    (C17_power_of_two_step padHash [[1], [2]] _ (AddRecords_reached padHash _ (by simp))
      (by decide) [3]).2⟩

/-- C20, a counterexample: the empty tree has 0 leaves, not a power of two;
`AddRecord [1]` returns and the root is then cell `0`, not nil as before, and
`MerkleRootHash` differs from the one before. -/
theorem C20_counterexample :
    isPowerOfTwo (NumRecords emptyState) = false ∧
    AddRecord padHash emptyState [1] = .ok (reached padHash [[1]]) ∧
    (reached padHash [[1]]).tree.root ≠ emptyState.tree.root ∧
    MerkleRootHash padHash (reached padHash [[1]]) ≠ MerkleRootHash padHash emptyState := by
  refine ⟨by decide, AddRecord_reached_0 padHash [1], by simp [reached, emptyState], ?_⟩
  simp [reached, emptyState, MerkleRootHash, rd, bind, Except.bind, padHash]

/-- On a tree reached from the empty one whose number of leaves is at least one
and not a power of two, an `AddRecord` call that returns leaves
`MerkleRootHash` the same digest: the new leaf does not enter it. -/
theorem MerkleRootHash_kept (H : HashPrim) (rs : List Bytes) (s : State)
    (hs : AddRecords H emptyState rs = .ok s) (h1 : 1 ≤ rs.length)
    (hn : isPowerOfTwo rs.length = false) (r : Bytes) (t : State)
    (ht : AddRecord H s r = .ok t) :
    MerkleRootHash H t = MerkleRootHash H s := by
  obtain ⟨hl, rfl, rfl⟩ := step_reached H rs s r t hs ht
  rcases rs with _ | ⟨r1, _ | ⟨r2, _ | ⟨r3, _ | ⟨r4, _ | ⟨r5, _ | ⟨r6, _ | ⟨r7, rs⟩⟩⟩⟩⟩⟩⟩
  · simp at h1
  · simp [isPowerOfTwo_vals] at hn
  · simp [isPowerOfTwo_vals] at hn
  · simp [reached, MerkleRootHash, rd, bind, Except.bind]
  · simp [isPowerOfTwo_vals] at hn
  · simp [reached, MerkleRootHash, rd, bind, Except.bind]
  · simp [reached, MerkleRootHash, rd, bind, Except.bind]
  · simp at hl

/-- C20 as amended: on a tree reached from the empty one whose number of leaves is
at least one and not a power of two, an `AddRecord` call that returns leaves
the root the same cell. -/
theorem C20_root_kept (H : HashPrim) (rs : List Bytes) (s : State)
    (hs : AddRecords H emptyState rs = .ok s) (h1 : 1 ≤ rs.length)
    (hn : isPowerOfTwo rs.length = false) (r : Bytes) (t : State)
    (ht : AddRecord H s r = .ok t) :
    t.tree.root = s.tree.root := by
  obtain ⟨hl, rfl, rfl⟩ := step_reached H rs s r t hs ht
  rcases rs with _ | ⟨r1, _ | ⟨r2, _ | ⟨r3, _ | ⟨r4, _ | ⟨r5, _ | ⟨r6, _ | ⟨r7, rs⟩⟩⟩⟩⟩⟩⟩
  · simp at h1
  · simp [isPowerOfTwo_vals] at hn
  · simp [isPowerOfTwo_vals] at hn
  · simp [reached]
  · simp [isPowerOfTwo_vals] at hn
  · simp [reached]
  · simp [reached]
  · simp at hl

/-- C20 as amended, at `encHash`, the tree holding `[1], [2], [3]` and the
new record `[4]`. -/
theorem C20_root_kept_witness :
    AddRecords encHash emptyState [[1], [2], [3]] = .ok (reached encHash [[1], [2], [3]]) ∧
    1 ≤ ([[1], [2], [3]] : List Bytes).length ∧
    isPowerOfTwo ([[1], [2], [3]] : List Bytes).length = false ∧
    AddRecord encHash (reached encHash [[1], [2], [3]]) [4] =
      .ok (reached encHash [[1], [2], [3], [4]]) ∧
    (reached encHash [[1], [2], [3], [4]]).tree.root =
      (reached encHash [[1], [2], [3]]).tree.root :=
  ⟨AddRecords_reached encHash _ (by simp), by simp, by decide,
    AddRecord_reached_3 encHash _ _ _ _,
    C20_root_kept encHash [[1], [2], [3]] _ (AddRecords_reached encHash _ (by simp))
      (by simp) (by decide) [4] _ (AddRecord_reached_3 encHash _ _ _ _)⟩

/-- C13: on a tree reached from the empty one by appending `rs`, `leafs` has as
many entries as `rs`; its entries, paired in order with the records, are
addresses of childless cells whose checksum is the hash of the paired record;
and an `AddRecord` call that returns only adds one entry at the end. -/
theorem C13_leaf_sequence (H : HashPrim) (rs : List Bytes) (s : State)
    (hs : AddRecords H emptyState rs = .ok s) :
    s.tree.leafs.length = rs.length ∧
    (∀ pr ∈ s.tree.leafs.zip rs, ∃ (a : Nat) (nd : node),
      pr.1 = some a ∧ s.mem[a]? = some nd ∧ nd.left = none ∧ nd.right = none ∧
      nd.checksum = H.Sum256 pr.2) ∧
    (∀ (r : Bytes) (t : State), AddRecord H s r = .ok t →
      ∃ p, t.tree.leafs = s.tree.leafs ++ [p]) := by
  refine ⟨?_, ?_, ?_⟩
  · have h := NumRecords_AddRecords H rs emptyState s hs
    simpa [NumRecords, emptyState] using h
  · obtain ⟨hl, rfl⟩ := AddRecords_ok H rs s hs
    rcases rs with _ | ⟨r1, _ | ⟨r2, _ | ⟨r3, _ | ⟨r4, _ | ⟨r5, _ | ⟨r6, _ | ⟨r7, rs⟩⟩⟩⟩⟩⟩⟩
    · simp [reached, emptyState]
    · simp [reached]
    · simp [reached]
    · simp [reached]
    · simp [reached]
    · simp [reached]
    · simp [reached]
    · rcases rs with _ | ⟨r8, rs⟩
      · simp [reached]
      · simp at hl
  · intro r t ht
    obtain ⟨hl, rfl, rfl⟩ := step_reached H rs s r t hs ht
    rcases rs with _ | ⟨r1, _ | ⟨r2, _ | ⟨r3, _ | ⟨r4, _ | ⟨r5, _ | ⟨r6, _ | ⟨r7, rs⟩⟩⟩⟩⟩⟩⟩
    all_goals first
      | (simp at hl; done)
      | simp [reached, emptyState]

/-- C12: on a tree reached from the empty one by appending `rs`, every cell with a
child has both children, and its checksum is the hash of the left child's
checksum followed by the right child's; every childless cell is the entry
of `leafs` paired with some record of `rs`, and its checksum is the hash of
that record. -/
theorem C12_checksum_invariant (H : HashPrim) (rs : List Bytes) (s : State)
    (hs : AddRecords H emptyState rs = .ok s) :
    (∀ (a : Nat) (nd : node), s.mem[a]? = some nd → (nd.left ≠ none ∨ nd.right ≠ none) →
      ∃ l r, rd s.mem nd.left = .ok l ∧ rd s.mem nd.right = .ok r ∧
        nd.checksum = H.Sum256 (l.checksum ++ r.checksum)) ∧
    (∀ (a : Nat) (nd : node), s.mem[a]? = some nd → nd.left = none → nd.right = none →
      ∃ r, (some a, r) ∈ s.tree.leafs.zip rs ∧ nd.checksum = H.Sum256 r) := by
  obtain ⟨hl, rfl⟩ := AddRecords_ok H rs s hs
  rcases rs with _ | ⟨r1, _ | ⟨r2, _ | ⟨r3, _ | ⟨r4, _ | ⟨r5, _ | ⟨r6, _ | ⟨r7, _ | ⟨r8, rs⟩⟩⟩⟩⟩⟩⟩⟩
  case cons.cons.cons.cons.cons.cons.cons.cons => simp at hl
  all_goals
    constructor
    · intro a nd h hc
      simp only [reached, emptyState] at h ⊢
      repeat
        rcases a with _ | a
        · simp at h; subst h; simp [rd] at hc ⊢
        simp only [List.getElem?_cons_succ] at h
      simp at h
    · intro a nd h h1 h2
      simp only [reached, emptyState] at h ⊢
      repeat
        rcases a with _ | a
        · simp at h; subst h; simp at h1 h2 ⊢
        simp only [List.getElem?_cons_succ] at h
      simp at h

/-- C12 at `padHash` and the records `[1], [2], [3]`. -/
theorem C12_checksum_invariant_witness :
    AddRecords padHash emptyState [[1], [2], [3]] = .ok (reached padHash [[1], [2], [3]]) ∧
    (∀ (a : Nat) (nd : node), (reached padHash [[1], [2], [3]]).mem[a]? = some nd →
      (nd.left ≠ none ∨ nd.right ≠ none) →
      ∃ l r, rd (reached padHash [[1], [2], [3]]).mem nd.left = .ok l ∧
        rd (reached padHash [[1], [2], [3]]).mem nd.right = .ok r ∧
        nd.checksum = padHash.Sum256 (l.checksum ++ r.checksum)) ∧
    (∀ (a : Nat) (nd : node), (reached padHash [[1], [2], [3]]).mem[a]? = some nd →
      nd.left = none → nd.right = none →
      ∃ r, (some a, r) ∈ (reached padHash [[1], [2], [3]]).tree.leafs.zip [[1], [2], [3]] ∧
        nd.checksum = padHash.Sum256 r) :=
  ⟨AddRecords_reached padHash _ (by simp),
    C12_checksum_invariant padHash [[1], [2], [3]] _
      (AddRecords_reached padHash _ (by simp))⟩

/-- C13 at `padHash` and the records `[1], [2]`. -/
theorem C13_leaf_sequence_witness :
    AddRecords padHash emptyState [[1], [2]] = .ok (reached padHash [[1], [2]]) ∧
    (reached padHash [[1], [2]]).tree.leafs.length = ([[1], [2]] : List Bytes).length ∧
    (∀ pr ∈ (reached padHash [[1], [2]]).tree.leafs.zip [[1], [2]], ∃ (a : Nat) (nd : node),
      pr.1 = some a ∧ (reached padHash [[1], [2]]).mem[a]? = some nd ∧ nd.left = none ∧
      nd.right = none ∧ nd.checksum = padHash.Sum256 pr.2) ∧
    (∀ (r : Bytes) (t : State), AddRecord padHash (reached padHash [[1], [2]]) r = .ok t →
      ∃ p, t.tree.leafs = (reached padHash [[1], [2]]).tree.leafs ++ [p]) :=
  ⟨AddRecords_reached padHash _ (by simp),
    C13_leaf_sequence padHash [[1], [2]] _ (AddRecords_reached padHash _ (by simp))⟩

/-- C14: a call of `AddRecord` that returns, on a tree reached from the empty one,
leaves the checksum of every cell that was there before as it was, unless
the cell is on the parent chain that starts at the new internal node. -/
theorem C14_checksums_off_the_chain_kept (H : HashPrim) (rs : List Bytes) (s : State)
    (hs : AddRecords H emptyState rs = .ok s) (r : Bytes) (t : State)
    (ht : AddRecord H s r = .ok t) :
    ∀ (a : Nat) (nd : node), s.mem[a]? = some nd →
      a ∉ parentChain t.mem.length t.mem (newLeafParentOf t) →
      ∃ nd1, t.mem[a]? = some nd1 ∧ nd1.checksum = nd.checksum := by
  obtain ⟨hl, rfl, rfl⟩ := step_reached H rs s r t hs ht
  rcases rs with _ | ⟨r1, _ | ⟨r2, _ | ⟨r3, _ | ⟨r4, _ | ⟨r5, _ | ⟨r6, _ | ⟨r7, rs⟩⟩⟩⟩⟩⟩⟩
  case cons.cons.cons.cons.cons.cons.cons => simp at hl
  all_goals
    intro a nd h hc
    simp only [reached, emptyState, List.cons_append, List.nil_append] at h ⊢
    repeat
      rcases a with _ | a
      · simp at h; subst h; simp
      simp only [List.getElem?_cons_succ] at h
    simp at h

/-- C19: a call of `AddRecord` that returns, on a tree reached from the empty one,
leaves the left and right links of every cell that was there before as they
were, and the checksum of every childless one; it changes the parent link of
the merge point only, and a checksum only of a cell with children on the
parent chain that starts at the new internal node. -/
theorem C19_child_links_kept (H : HashPrim) (rs : List Bytes) (s : State)
    (hs : AddRecords H emptyState rs = .ok s) (r : Bytes) (t : State)
    (ht : AddRecord H s r = .ok t) :
    ∀ (a : Nat) (nd : node), s.mem[a]? = some nd →
      ∃ nd1, t.mem[a]? = some nd1 ∧ nd1.left = nd.left ∧ nd1.right = nd.right ∧
        (nd.left = none → nd.right = none → nd1.checksum = nd.checksum) ∧
        (nd1.parent ≠ nd.parent → mergePoint s = .ok (some a)) ∧
        (nd1.checksum ≠ nd.checksum → (nd.left ≠ none ∨ nd.right ≠ none) ∧
          a ∈ parentChain t.mem.length t.mem (newLeafParentOf t)) := by
  obtain ⟨hl, rfl, rfl⟩ := step_reached H rs s r t hs ht
  rcases rs with _ | ⟨r1, _ | ⟨r2, _ | ⟨r3, _ | ⟨r4, _ | ⟨r5, _ | ⟨r6, _ | ⟨r7, rs⟩⟩⟩⟩⟩⟩⟩
  case cons.cons.cons.cons.cons.cons.cons => simp at hl
  all_goals
    intro a nd h
    simp only [reached, emptyState, List.cons_append, List.nil_append] at h ⊢
    repeat
      rcases a with _ | a
      · simp at h; subst h
        simp [mergePoint, findFilled, rd, bind, Except.bind, isPowerOfTwo_vals, topBit_vals]
      simp only [List.getElem?_cons_succ] at h
    simp at h

/-- C18: on a tree reached from the empty one and not empty (the first insertion
makes no splice), when the splice of `AddRecord r` completes, the
`updateChecksums` call on the new internal node returns within the one call
per allocated cell it is given, and with the heap it leaves `AddRecord r`
returns.  It makes exactly as many calls as the parent chain from the new
internal node has cells (with fewer allowed it does not return); the cells it
recomputes, in order, are those of that chain, none twice, and the last one
is the root of the tree, which has no parent.  The cells recomputed are read
from `updateChecksumsT`, which on every heap computes the heap of
`updateChecksums`. -/
theorem C18_propagation_reaches_root (H : HashPrim) (rs : List Bytes) (s : State)
    (hs : AddRecords H emptyState rs = .ok s) (hne : rs ≠ []) (r : Bytes)
    (u : State) (M : Ptr) (hsp : splice H s r = .ok (u, M)) :
    ∃ (m1 : Mem) (visited : List Nat),
      updateChecksums H u.mem.length u.mem M = .ok m1 ∧
      AddRecord H s r = .ok { mem := m1, tree := u.tree } ∧
      updateChecksums H visited.length u.mem M = .ok m1 ∧
      (∀ k, k < visited.length → updateChecksums H k u.mem M = .error .diverge) ∧
      (∀ (fuel : Nat) (m : Mem) (p : Ptr),
        updateChecksums H fuel m p = (updateChecksumsT H fuel m p).map Prod.fst) ∧
      updateChecksumsT H u.mem.length u.mem M = .ok (m1, visited) ∧
      visited = parentChain u.mem.length u.mem M ∧
      visited.Nodup ∧
      ∃ root, visited.getLast? = some root ∧ u.tree.root = some root ∧
        (rd m1 (some root)).map (fun c => c.parent) = .ok none := by
  obtain ⟨hl, rfl⟩ := AddRecords_ok H rs s hs
  rcases rs with _ | ⟨r1, _ | ⟨r2, _ | ⟨r3, _ | ⟨r4, _ | ⟨r5, _ | ⟨r6, _ | ⟨r7, _ | ⟨r8, rs⟩⟩⟩⟩⟩⟩⟩⟩
  · exact absurd rfl hne
  · simp [splice, reached, new, wr, rd, zeroNode, findFilled, bind, Except.bind,
      isPowerOfTwo_vals, topBit_vals] at hsp
    obtain ⟨rfl, rfl⟩ := hsp
    refine ⟨(reached H [r1, r]).mem, [2], ?_, ?_, ?_, ?_,
      fun fuel m p => updateChecksums_eq_trace H fuel m p, ?_, ?_, by simp, 2, ?_⟩
    · simp [updateChecksums, reached, wr, rd, bind, Except.bind]
    · rw [AddRecord_reached_1]; simp [reached]
    · simp [updateChecksums, reached, wr, rd, bind, Except.bind]
    · intro k hk
      simp only [List.length_cons, List.length_nil] at hk
      interval_cases k
      all_goals simp [updateChecksums, wr, rd, bind, Except.bind]
    · simp [updateChecksumsT, reached, wr, rd, bind, Except.bind]
    · simp [parentChain]
    · simp [reached, rd, Except.map]
  · simp [splice, reached, new, wr, rd, zeroNode, findFilled, bind, Except.bind,
      isPowerOfTwo_vals, topBit_vals] at hsp
    obtain ⟨rfl, rfl⟩ := hsp
    refine ⟨(reached H [r1, r2, r]).mem, [4], ?_, ?_, ?_, ?_,
      fun fuel m p => updateChecksums_eq_trace H fuel m p, ?_, ?_, by simp, 4, ?_⟩
    · simp [updateChecksums, reached, wr, rd, bind, Except.bind]
    · rw [AddRecord_reached_2]; simp [reached]
    · simp [updateChecksums, reached, wr, rd, bind, Except.bind]
    · intro k hk
      simp only [List.length_cons, List.length_nil] at hk
      interval_cases k
      all_goals simp [updateChecksums, wr, rd, bind, Except.bind]
    · simp [updateChecksumsT, reached, wr, rd, bind, Except.bind]
    · simp [parentChain]
    · simp [reached, rd, Except.map]
  · simp [splice, reached, new, wr, rd, zeroNode, findFilled, bind, Except.bind,
      isPowerOfTwo_vals, topBit_vals] at hsp
    obtain ⟨rfl, rfl⟩ := hsp
    refine ⟨(reached H [r1, r2, r3, r]).mem, [6, 4], ?_, ?_, ?_, ?_,
      fun fuel m p => updateChecksums_eq_trace H fuel m p, ?_, ?_, by simp, 4, ?_⟩
    · simp [updateChecksums, reached, wr, rd, bind, Except.bind]
    · rw [AddRecord_reached_3]; simp [reached]
    · simp [updateChecksums, reached, wr, rd, bind, Except.bind]
    · intro k hk
      simp only [List.length_cons, List.length_nil] at hk
      interval_cases k
      all_goals simp [updateChecksums, wr, rd, bind, Except.bind]
    · simp [updateChecksumsT, reached, wr, rd, bind, Except.bind]
    · simp [parentChain]
    · simp [reached, rd, Except.map]
  · simp [splice, reached, new, wr, rd, zeroNode, findFilled, bind, Except.bind,
      isPowerOfTwo_vals, topBit_vals] at hsp
    obtain ⟨rfl, rfl⟩ := hsp
    refine ⟨(reached H [r1, r2, r3, r4, r]).mem, [8], ?_, ?_, ?_, ?_,
      fun fuel m p => updateChecksums_eq_trace H fuel m p, ?_, ?_, by simp, 8, ?_⟩
    · simp [updateChecksums, reached, wr, rd, bind, Except.bind]
    · rw [AddRecord_reached_4]; simp [reached]
    · simp [updateChecksums, reached, wr, rd, bind, Except.bind]
    · intro k hk
      simp only [List.length_cons, List.length_nil] at hk
      interval_cases k
      all_goals simp [updateChecksums, wr, rd, bind, Except.bind]
    · simp [updateChecksumsT, reached, wr, rd, bind, Except.bind]
    · simp [parentChain]
    · simp [reached, rd, Except.map]
  · simp [splice, reached, new, wr, rd, zeroNode, findFilled, bind, Except.bind,
      isPowerOfTwo_vals, topBit_vals] at hsp
    obtain ⟨rfl, rfl⟩ := hsp
    refine ⟨(reached H [r1, r2, r3, r4, r5, r]).mem, [10, 8], ?_, ?_, ?_, ?_,
      fun fuel m p => updateChecksums_eq_trace H fuel m p, ?_, ?_, by simp, 8, ?_⟩
    · simp [updateChecksums, reached, wr, rd, bind, Except.bind]
    · rw [AddRecord_reached_5]; simp [reached]
    · simp [updateChecksums, reached, wr, rd, bind, Except.bind]
    · intro k hk
      simp only [List.length_cons, List.length_nil] at hk
      interval_cases k
      all_goals simp [updateChecksums, wr, rd, bind, Except.bind]
    · simp [updateChecksumsT, reached, wr, rd, bind, Except.bind]
    · simp [parentChain]
    · simp [reached, rd, Except.map]
  · simp [splice, reached, new, wr, rd, zeroNode, findFilled, bind, Except.bind,
      isPowerOfTwo_vals, topBit_vals] at hsp
    obtain ⟨rfl, rfl⟩ := hsp
    refine ⟨(reached H [r1, r2, r3, r4, r5, r6, r]).mem, [12, 10, 8], ?_, ?_, ?_, ?_,
      fun fuel m p => updateChecksums_eq_trace H fuel m p, ?_, ?_, by simp, 8, ?_⟩
    · simp [updateChecksums, reached, wr, rd, bind, Except.bind]
    · rw [AddRecord_reached_6]; simp [reached]
    · simp [updateChecksums, reached, wr, rd, bind, Except.bind]
    · intro k hk
      simp only [List.length_cons, List.length_nil] at hk
      interval_cases k
      all_goals simp [updateChecksums, wr, rd, bind, Except.bind]
    · simp [updateChecksumsT, reached, wr, rd, bind, Except.bind]
    · simp [parentChain]
    · simp [reached, rd, Except.map]
  · simp [splice, reached, new, wr, rd, zeroNode, findFilled, bind, Except.bind,
      isPowerOfTwo_vals, topBit_vals] at hsp
  · simp at hl

/-- C18 at `padHash`, the tree holding `[1], [2], [3]` and the new record `[4]`:
the splice completes there, `updateChecksums` returns after two calls and not
after one, and the second cell it recomputes is the root. -/
theorem C18_propagation_reaches_root_witness :
    AddRecords padHash emptyState [[1], [2], [3]] = .ok (reached padHash [[1], [2], [3]]) ∧
    ∃ (u : State) (M : Ptr), splice padHash (reached padHash [[1], [2], [3]]) [4] = .ok (u, M) ∧
      ∃ (m1 : Mem) (visited : List Nat),
        updateChecksums padHash u.mem.length u.mem M = .ok m1 ∧
        AddRecord padHash (reached padHash [[1], [2], [3]]) [4] =
          .ok { mem := m1, tree := u.tree } ∧
        updateChecksums padHash visited.length u.mem M = .ok m1 ∧
        (∀ k, k < visited.length → updateChecksums padHash k u.mem M = .error .diverge) ∧
        visited = parentChain u.mem.length u.mem M ∧
        visited.Nodup ∧
        ∃ root, visited.getLast? = some root ∧ u.tree.root = some root ∧
          (rd m1 (some root)).map (fun c => c.parent) = .ok none := by
  refine ⟨AddRecords_reached padHash _ (by simp), ?_⟩
  have hsp : ∃ u M, splice padHash (reached padHash [[1], [2], [3]]) [4] = .ok (u, M) := by
    simp [splice, reached, new, wr, rd, zeroNode, findFilled, bind, Except.bind,
      isPowerOfTwo_vals, topBit_vals]
  obtain ⟨u, M, h⟩ := hsp
  obtain ⟨m1, visited, h1, h2, h3, h4, _, _, h7, h8, h9⟩ :=
    C18_propagation_reaches_root padHash [[1], [2], [3]] _
      (AddRecords_reached padHash _ (by simp)) (by simp) [4] u M h
  exact ⟨u, M, h, m1, visited, h1, h2, h3, h4, h7, h8, h9⟩

/-- C14 at `padHash`, the tree holding `[1], [2], [3]` and the new record `[4]`. -/
theorem C14_checksums_off_the_chain_kept_witness :
    AddRecords padHash emptyState [[1], [2], [3]] = .ok (reached padHash [[1], [2], [3]]) ∧
    AddRecord padHash (reached padHash [[1], [2], [3]]) [4] =
      .ok (reached padHash [[1], [2], [3], [4]]) ∧
    (reached padHash [[1], [2], [3]]).mem[0]? = some ⟨some 2, none, none, padHash.Sum256 [1]⟩ ∧
    0 ∉ parentChain (reached padHash [[1], [2], [3], [4]]).mem.length
      (reached padHash [[1], [2], [3], [4]]).mem
      (newLeafParentOf (reached padHash [[1], [2], [3], [4]])) ∧
    ∃ nd1, (reached padHash [[1], [2], [3], [4]]).mem[0]? = some nd1 ∧
      nd1.checksum = padHash.Sum256 [1] :=
  have h0 : (reached padHash [[1], [2], [3]]).mem[0]? =
      some ⟨some 2, none, none, padHash.Sum256 [1]⟩ := by simp [reached]
  have hc : 0 ∉ parentChain (reached padHash [[1], [2], [3], [4]]).mem.length
      (reached padHash [[1], [2], [3], [4]]).mem
      (newLeafParentOf (reached padHash [[1], [2], [3], [4]])) := by
    simp [reached, newLeafParentOf, parentChain]
  ⟨AddRecords_reached padHash _ (by simp), AddRecord_reached_3 padHash _ _ _ _, h0, hc,
    C14_checksums_off_the_chain_kept padHash [[1], [2], [3]] _
      (AddRecords_reached padHash _ (by simp)) [4] _ (AddRecord_reached_3 padHash _ _ _ _)
      0 _ h0 hc⟩

/-- C19 at `padHash`, the tree holding `[1], [2], [3]`, the new record `[4]` and
the cell `3`, the merge point. -/
theorem C19_child_links_kept_witness :
    AddRecords padHash emptyState [[1], [2], [3]] = .ok (reached padHash [[1], [2], [3]]) ∧
    AddRecord padHash (reached padHash [[1], [2], [3]]) [4] =
      .ok (reached padHash [[1], [2], [3], [4]]) ∧
    (reached padHash [[1], [2], [3]]).mem[3]? = some ⟨some 4, none, none, padHash.Sum256 [3]⟩ ∧
    ∃ nd1, (reached padHash [[1], [2], [3], [4]]).mem[3]? = some nd1 ∧
      nd1.left = none ∧ nd1.right = none ∧
      (nd1.parent ≠ some 4 → mergePoint (reached padHash [[1], [2], [3]]) = .ok (some 3)) :=
  have h3 : (reached padHash [[1], [2], [3]]).mem[3]? =
      some ⟨some 4, none, none, padHash.Sum256 [3]⟩ := by simp [reached]
  ⟨AddRecords_reached padHash _ (by simp), AddRecord_reached_3 padHash _ _ _ _, h3,
    (C19_child_links_kept padHash [[1], [2], [3]] _
      (AddRecords_reached padHash _ (by simp)) [4] _ (AddRecord_reached_3 padHash _ _ _ _)
      3 _ h3).imp (fun _ h => ⟨h.1, h.2.1, h.2.2.1, h.2.2.2.2.1⟩)⟩


/-! ## The walk does not see the cells a call allocates -/

theorem rd_append (m e : Mem) (p : Ptr) (nd : node) (h : rd m p = .ok nd) :
    rd (m ++ e) p = .ok nd := by
  cases p with
  | none => simp [rd] at h
  | some a =>
    simp only [rd] at h ⊢
    cases hm : m[a]? with
    | none => simp [hm] at h
    | some c =>
      have hlt : a < m.length := by
        by_contra hge
        rw [List.getElem?_eq_none (by omega)] at hm
        cases hm
      rw [List.getElem?_append_left hlt, hm]
      simpa [hm] using h

/-- A walk that returns on a heap returns the same on any extension of it. -/
theorem findFilled_append (e : Mem) (fuel : Nat) :
    ∀ (m : Mem) (cnt : Nat) (p q : Ptr), findFilled fuel m cnt p = .ok q →
      findFilled fuel (m ++ e) cnt p = .ok q := by
  induction fuel with
  | zero => intro m cnt p q h; simpa [findFilled] using h
  | succ f ih =>
    intro m cnt p q h
    simp only [findFilled] at h ⊢
    split
    · rename_i hp; simpa [hp] using h
    · rename_i hp
      simp only [hp, bind, Except.bind] at h ⊢
      cases hr : rd m p with
      | error err => simp [hr] at h
      | ok nd =>
        rw [rd_append m e p nd hr]
        simp only [hr] at h
        exact ih m _ _ q h

/-- The heap on which `AddRecord` runs its walk: the heap before the call and the
two cells allocated first, the new leaf and the new internal node. -/
theorem alloc_heap (H : HashPrim) (m : Mem) (r : Bytes) :
    (do
      let m1 ← wr (new m).2 (some (new m).1) (fun c => { c with checksum := H.Sum256 r })
      let m3 ← wr (new m1).2 (some (new m).1) (fun c => { c with parent := some (new m1).1 })
      wr m3 (some (new m1).1) (fun c => { c with right := some (new m).1 })) =
    .ok (m ++ [⟨some (m.length + 1), none, none, H.Sum256 r⟩,
               ⟨none, none, some m.length, List.replicate 32 0⟩]) := by
  simp [new, wr, zeroNode, bind, Except.bind, List.getElem?_append_right,
    List.getElem_append_right]

/-- The walk of `AddRecord`, run on the heap with the two fresh cells, ends where
`mergePoint` says. -/
theorem walk_eq_mergePoint (H : HashPrim) (s : State) (r : Bytes) (q : Ptr)
    (h : mergePoint s = .ok q) :
    findFilled s.tree.leafs.length
      (s.mem ++ [⟨some (s.mem.length + 1), none, none, H.Sum256 r⟩,
                 ⟨none, none, some s.mem.length, List.replicate 32 0⟩])
      s.tree.leafs.length s.tree.root = .ok q :=
  findFilled_append _ _ _ _ _ _ h

end Merkle
